import Mathlib

/-
Verification of the simple_backtesting repository (src/backtest.py,
src/utils.py, src/Strategy.py) via a shallow embedding in Lean.

Numeric values (cash, position, prices, commission) are modelled as
rationals, matching the exact arithmetic the specification asserts.
Pandas NaN cells are modelled as `Option` with `none` for NaN.
-/

namespace SimpleBacktesting

/-- Account state of `ExchangeAPI`: the `_cash` and `_position` fields. -/
structure ExchangeState where
  cash : ℚ
  pos : ℚ
  deriving DecidableEq, Repr

/-- `ExchangeAPI.buy`: `self._position = float(self._cash * (1 - self._commission) / self.current_price); self._cash = 0.0`. -/
def buy (commission price : ℚ) (s : ExchangeState) : ExchangeState :=
  { pos := s.cash * (1 - commission) / price, cash := 0 }

/-- `ExchangeAPI.sell`: `self._cash += float(self._position * self.current_price * (1 - self._commission)); self._position = 0.0`. -/
def sell (commission price : ℚ) (s : ExchangeState) : ExchangeState :=
  { cash := s.cash + s.pos * price * (1 - commission), pos := 0 }

/-- `utils.crossover(series1, series2)`: `series1[-2] < series2[-2] and series1[-1] > series2[-1]`.
Python negative indexing raises `IndexError` when a series has fewer than
two elements; that failure is modelled as `none`. -/
def crossover (series1 series2 : List ℚ) : Option Bool :=
  if 2 ≤ series1.length ∧ 2 ≤ series2.length then
    some (decide (series1.getD (series1.length - 2) 0 < series2.getD (series2.length - 2) 0)
       && decide (series2.getD (series2.length - 1) 0 < series1.getD (series1.length - 1) 0))
  else
    none

/-- `utils.SMA(values, n)`: `pd.Series(values).rolling(n).mean()`.
Entry `i` is the mean of the window `values[i+1-n .. i]` once `i + 1 ≥ n`,
and NaN (`none`) before the window is full. -/
def SMA (values : List ℚ) (n : ℕ) : List (Option ℚ) :=
  (List.range values.length).map fun i =>
    if n ≤ i + 1 then some (((values.drop (i + 1 - n)).take n).sum / (n : ℚ)) else none

/-- A trading decision a strategy's `next(tick)` can make: call
`self.buy()`, call `self.sell()`, or do nothing (`Strategy.buy`,
`Strategy.sell`, or the final `pass` branch of `SmaCross.next`). -/
inductive Action where
  | buy
  | sell
  | hold
  deriving DecidableEq, Repr

/-- Apply one strategy decision to the account through the broker at the
current market price, as `ExchangeAPI.buy` / `ExchangeAPI.sell` do. -/
def applyAction (commission price : ℚ) : Action → ExchangeState → ExchangeState
  | Action.buy, s => buy commission price s
  | Action.sell, s => sell commission price s
  | Action.hold, s => s

/-- Full broker state: the account plus the cursor `_i` set by
`ExchangeAPI.next(tick)`. -/
structure BrokerState where
  acct : ExchangeState
  idx : ℕ
  deriving DecidableEq, Repr

/-- `ExchangeAPI.current_price`: `self._data.Close[self._i]`. -/
def currentPrice (close : List ℚ) (i : ℕ) : ℚ :=
  close.getD i 0

/-- `ExchangeAPI.market_value`: `self._cash + self._position * self.current_price`. -/
def marketValue (close : List ℚ) (b : BrokerState) : ℚ :=
  b.acct.cash + b.acct.pos * currentPrice close b.idx

/-- The main loop of `Backtest.run` over the given list of ticks: for each
tick `broker.next(i)` moves the cursor, then `strategy.next(i)` possibly
trades at `close[i]`.  The strategy is a function from the tick to its
decision, as for `SmaCross` whose decisions depend only on the data. -/
def runLoop (commission : ℚ) (close : List ℚ) (strat : ℕ → Action) :
    List ℕ → BrokerState → BrokerState
  | [], b => b
  | t :: ts, b =>
      runLoop commission close strat ts
        { acct := applyAction commission (currentPrice close t) (strat t) b.acct, idx := t }

/-- `Backtest.run`: the broker starts with `_cash = cash`, `_position = 0`,
`_i = 0`, then the loop runs over `range(start, end)` with `start = 100`
and `end = len(data)`. -/
def runBacktest (close : List ℚ) (strat : ℕ → Action) (cash0 commission : ℚ) : BrokerState :=
  runLoop commission close strat (List.range' 100 (close.length - 100))
    { acct := { cash := cash0, pos := 0 }, idx := 0 }

/-- The `Final market value` entry of `Backtest._compute_result`. -/
def finalMarketValue (close : List ℚ) (strat : ℕ → Action) (cash0 commission : ℚ) : ℚ :=
  marketValue close (runBacktest close strat cash0 commission)

/-- The `Profit` entry of `Backtest._compute_result`:
`broker.market_value - broker.initial_cash`. -/
def profit (close : List ℚ) (strat : ℕ → Action) (cash0 commission : ℚ) : ℚ :=
  finalMarketValue close strat cash0 commission - cash0

/-- The OHLC columns of the input price table; a cell is `none` for NaN. -/
structure OHLCData where
  openCol : List (Option ℚ)
  highCol : List (Option ℚ)
  lowCol : List (Option ℚ)
  closeCol : List (Option ℚ)
  deriving DecidableEq, Repr

/-- Pandas `Series.max()` with the default `skipna=True`: the maximum of
the non-null cells, null when every cell is null (or the column is empty). -/
def colMax (col : List (Option ℚ)) : Option ℚ :=
  (col.filterMap id).max?

/-- The missing-value check of `Backtest.__init__`:
`not data[['Open', 'High', 'Low', 'Close']].max().isnull().any()` — the
construction proceeds past this check exactly when it returns `true`. -/
def ohlcNullCheckPasses (d : OHLCData) : Bool :=
  (colMax d.openCol).isSome && (colMax d.highCol).isSome &&
    (colMax d.lowCol).isSome && (colMax d.closeCol).isSome

/-- Modelled from the spec: "rejects any row with a null
Open/High/Low/Close as InvalidData" — whether some row has a null cell in
any of the four OHLC columns. -/
def specHasNullOHLCRow (d : OHLCData) : Bool :=
  d.openCol.any Option.isNone || d.highCol.any Option.isNone ||
    d.lowCol.any Option.isNone || d.closeCol.any Option.isNone

/-- The observable events of `Backtest.run`, in execution order. -/
inductive Event where
  | init
  | advance (tick : ℕ)
  | next (tick : ℕ)
  | computeResult
  deriving DecidableEq, Repr

/-- Events of the main loop of `Backtest.run` over a tick list: each
iteration performs `broker.next(i)` and then `strategy.next(i)`. -/
def loopTrace : List ℕ → List Event
  | [] => []
  | t :: ts => Event.advance t :: Event.next t :: loopTrace ts

/-- Event trace of `Backtest.run` on data of length `n`:
`strategy.init()`, then the loop over `range(100, n)`, then
`self._compute_result(broker)`. -/
def runTrace (n : ℕ) : List Event :=
  (Event.init :: loopTrace (List.range' 100 (n - 100))) ++ [Event.computeResult]

/-- C1 counterexample: with `cash = 0` and a nonzero position (reachable:
any buy, then a second buy, produces it), `buy()` is not a no-op — it
resets the position to 0.  Here commission 0, price 2, position 5. -/
theorem C1_counterexample :
    ¬ buy 0 2 { cash := 0, pos := 5 } = { cash := 0, pos := 5 } := by
  intro h
  have hpos := congrArg ExchangeState.pos h
  simp [buy] at hpos

/-- C1 (amended): for every exchange state with `cash == 0`, `buy()`
leaves cash at 0 and sets the position to 0, at every commission and
price; it is a silent no-op precisely when the position is also 0. -/
theorem C1_buy_zero_cash (k p : ℚ) (s : ExchangeState) (h : s.cash = 0) :
    buy k p s = { cash := 0, pos := 0 } ∧ (buy k p s = s ↔ s.pos = 0) := by
  have hb : buy k p s = { cash := 0, pos := 0 } := by
    simp [buy, h]
  refine ⟨hb, ?_⟩
  rw [hb]
  cases s with
  | mk c q =>
    simp only [ExchangeState.mk.injEq]
    simp at h
    simp [h, eq_comm]

/-- Witness for C1 at commission 0, price 2, state (cash 0, position 5). -/
theorem C1_buy_zero_cash_witness :
    buy 0 2 { cash := 0, pos := 5 } = { cash := 0, pos := 0 } ∧
      (buy 0 2 { cash := 0, pos := 5 } = { cash := 0, pos := 5 } ↔
        (ExchangeState.mk 0 5).pos = 0) :=
  C1_buy_zero_cash 0 2 { cash := 0, pos := 5 } rfl

/-- C3: immediately after any `buy()` and after any `sell()`, at most one
of cash > 0 and position > 0 holds, for every state and price: `buy`
always ends with cash exactly 0 and `sell` with position exactly 0. -/
theorem C3_no_both_nonzero (k p : ℚ) (s : ExchangeState) :
    ¬(0 < (buy k p s).cash ∧ 0 < (buy k p s).pos) ∧
      ¬(0 < (sell k p s).cash ∧ 0 < (sell k p s).pos) := by
  constructor
  · rintro ⟨hc, -⟩
    simp [buy] at hc
  · rintro ⟨-, hq⟩
    simp [sell] at hq

/-- C4: at price p > 0, `buy()` produces position `cash * (1 - k) / p`
and cash 0; `sell()` produces cash `cash + position * p * (1 - k)` and
position 0 — the all-in market orders of the source. -/
theorem C4_trade_effects (k p c q : ℚ) (hp : 0 < p) :
    buy k p { cash := c, pos := q } = { cash := 0, pos := c * (1 - k) / p } ∧
      sell k p { cash := c, pos := q } = { cash := c + q * p * (1 - k), pos := 0 } :=
  ⟨rfl, rfl⟩

/-- Witness for C4 at commission 1/100, price 2, cash 8, position 3. -/
theorem C4_trade_effects_witness :
    buy (1/100) 2 { cash := 8, pos := 3 } = { cash := 0, pos := 8 * (1 - 1/100) / 2 } ∧
      sell (1/100) 2 { cash := 8, pos := 3 } =
        { cash := 8 + 3 * 2 * (1 - 1/100), pos := 0 } :=
  C4_trade_effects (1/100) 2 8 3 (by norm_num)

/-- C5: for series of length at least two, `crossover(A, B)` is true iff
`A[-2] < B[-2]` and `A[-1] > B[-1]`; in particular
`crossover([1,2],[3,1])` is true and `crossover([1,2],[2,3])` is false. -/
theorem C5_crossover_spec (A B : List ℚ) (hA : 2 ≤ A.length) (hB : 2 ≤ B.length) :
    (crossover A B = some true ↔
        A.getD (A.length - 2) 0 < B.getD (B.length - 2) 0 ∧
          A.getD (A.length - 1) 0 > B.getD (B.length - 1) 0) ∧
      crossover [1, 2] [3, 1] = some true ∧ crossover [1, 2] [2, 3] = some false := by
  refine ⟨?_, by decide, by decide⟩
  simp [crossover, hA, hB, and_comm]

/-- Witness for C5 with A = [1, 2] and B = [3, 1]. -/
theorem C5_crossover_spec_witness :
    (crossover [1, 2] [3, 1] = some true ↔
        ([1, 2] : List ℚ).getD (([1, 2] : List ℚ).length - 2) 0 <
            ([3, 1] : List ℚ).getD (([3, 1] : List ℚ).length - 2) 0 ∧
          ([1, 2] : List ℚ).getD (([1, 2] : List ℚ).length - 1) 0 >
            ([3, 1] : List ℚ).getD (([3, 1] : List ℚ).length - 1) 0) ∧
      crossover [1, 2] [3, 1] = some true ∧ crossover [1, 2] [2, 3] = some false :=
  C5_crossover_spec [1, 2] [3, 1] (by decide) (by decide)

/-- A two-row price table whose first row has a null Open and all other
OHLC cells set to 1. -/
def nullRowExample : OHLCData :=
  { openCol := [none, some 1], highCol := [some 1, some 1],
    lowCol := [some 1, some 1], closeCol := [some 1, some 1] }

/-- C2: the construction-time null check of `Backtest.__init__` passes on
a table that does contain a row with a null Open — `.max()` skips NaN, so
the check only fires when an entire column is null, contradicting the code's
own error message about rows with missing values. -/
theorem C2_null_check_accepts_null_row :
    ohlcNullCheckPasses nullRowExample = true ∧
      specHasNullOHLCRow nullRowExample = true := by
  constructor
  · rfl
  · rfl

/-- The account is untouched by a loop in which the strategy holds at
every visited tick. -/
theorem runLoop_hold_acct (k : ℚ) (close : List ℚ) (strat : ℕ → Action) :
    ∀ (ts : List ℕ) (b : BrokerState), (∀ t ∈ ts, strat t = Action.hold) →
      (runLoop k close strat ts b).acct = b.acct := by
  intro ts
  induction ts with
  | nil => intro b _; rfl
  | cons t ts ih =>
    intro b hh
    have ht : strat t = Action.hold := hh t (List.mem_cons_self t ts)
    have hts : ∀ u ∈ ts, strat u = Action.hold := fun u hu => hh u (List.mem_cons_of_mem t hu)
    simp only [runLoop, ht, applyAction]
    exact ih _ hts

/-- C6: if the strategy neither buys nor sells at any tick of the run,
the final market value equals the initial cash exactly and the reported
Profit is exactly 0. -/
theorem C6_no_trade (close : List ℚ) (strat : ℕ → Action) (cash0 k : ℚ)
    (hs : ∀ t ∈ List.range' 100 (close.length - 100), strat t = Action.hold) :
    finalMarketValue close strat cash0 k = cash0 ∧ profit close strat cash0 k = 0 := by
  have hacct : (runBacktest close strat cash0 k).acct = { cash := cash0, pos := 0 } :=
    runLoop_hold_acct k close strat _ _ hs
  have hmv : finalMarketValue close strat cash0 k = cash0 := by
    unfold finalMarketValue marketValue
    rw [hacct]
    ring
  exact ⟨hmv, by unfold profit; rw [hmv]; ring⟩

/-- Witness for C6: 101 bars of constant price 1, initial cash 7,
commission 0, strategy that always holds. -/
theorem C6_no_trade_witness :
    finalMarketValue (List.replicate 101 1) (fun _ => Action.hold) 7 0 = 7 ∧
      profit (List.replicate 101 1) (fun _ => Action.hold) 7 0 = 0 :=
  C6_no_trade (List.replicate 101 1) (fun _ => Action.hold) 7 0 (fun t _ => rfl)

/-- The loop trace is the flat map of the two per-iteration events. -/
theorem loopTrace_eq_bind (ts : List ℕ) :
    loopTrace ts = ts.flatMap fun t => [Event.advance t, Event.next t] := by
  induction ts with
  | nil => rfl
  | cons t ts ih => simp [loopTrace, ih]

/-- No `init` event occurs inside the loop. -/
theorem loopTrace_count_init (ts : List ℕ) : (loopTrace ts).count Event.init = 0 := by
  induction ts with
  | nil => rfl
  | cons t ts ih => simp [loopTrace, List.count_cons, ih]

/-- No `computeResult` event occurs inside the loop. -/
theorem loopTrace_count_compute (ts : List ℕ) :
    (loopTrace ts).count Event.computeResult = 0 := by
  induction ts with
  | nil => rfl
  | cons t ts ih => simp [loopTrace, List.count_cons, ih]

/-- C8: `Backtest.run` emits `init` first, then for each tick of
`[100, N)` in strictly increasing order an `advance(tick)` immediately
followed by `next(tick)`, and a single `computeResult` at the very end;
`init` and `computeResult` each occur exactly once. -/
theorem C8_run_structure (n : ℕ) :
    runTrace n =
        Event.init ::
          (((List.range' 100 (n - 100)).flatMap fun t => [Event.advance t, Event.next t]) ++
            [Event.computeResult]) ∧
      (∀ t, t ∈ List.range' 100 (n - 100) ↔ 100 ≤ t ∧ t < n) ∧
      List.Pairwise (· < ·) (List.range' 100 (n - 100)) ∧
      (runTrace n).count Event.init = 1 ∧
      (runTrace n).count Event.computeResult = 1 ∧
      (runTrace n).head? = some Event.init ∧
      (runTrace n).getLast? = some Event.computeResult := by
  refine ⟨?_, ?_, ?_, ?_, ?_, rfl, ?_⟩
  · simp [runTrace, loopTrace_eq_bind]
  · intro t
    rw [List.mem_range'_1]
    omega
  · exact List.pairwise_lt_range' 100 (n - 100)
  · simp [runTrace, List.count_append, List.count_cons, loopTrace_count_init]
  · simp [runTrace, List.count_append, List.count_cons, loopTrace_count_compute]
  · exact List.getLast?_concat _

/-- C9: on a series whose every value is `v`, `SMA` with a window of
size `w ≥ 1` equals `v` exactly at every index past the warm-up, i.e. at
every `i` with `w - 1 ≤ i < length`. -/
theorem C9_sma_const (s : List ℚ) (v : ℚ) (w i : ℕ)
    (hv : ∀ x ∈ s, x = v) (hw : 1 ≤ w) (hi : w - 1 ≤ i) (hin : i < s.length) :
    (SMA s w)[i]? = some (some v) := by
  have hwi : w ≤ i + 1 := by omega
  have hslice : ∀ x ∈ (s.drop (i + 1 - w)).take w, x = v := fun x hx =>
    hv x (List.mem_of_mem_drop (List.mem_of_mem_take hx))
  have hlen : ((s.drop (i + 1 - w)).take w).length = w := by
    simp only [List.length_take, List.length_drop]
    omega
  have hrep : (s.drop (i + 1 - w)).take w = List.replicate w v := by
    rw [List.eq_replicate_iff]
    exact ⟨hlen, hslice⟩
  have hsum : ((s.drop (i + 1 - w)).take w).sum = (w : ℚ) * v := by
    rw [hrep, List.sum_replicate, nsmul_eq_mul]
  have hw0 : (w : ℚ) ≠ 0 := Nat.cast_ne_zero.mpr (by omega)
  simp only [SMA, List.getElem?_map, List.getElem?_range hin, Option.map_some']
  rw [if_pos hwi, hsum, mul_div_cancel_left₀ v hw0]

/-- Witness for C9: three bars of price 2, window 2, index 1. -/
theorem C9_sma_const_witness :
    (∀ x ∈ List.replicate 3 (2 : ℚ), x = 2) ∧ 1 ≤ 2 ∧ 2 - 1 ≤ 1 ∧
      1 < (List.replicate 3 (2 : ℚ)).length ∧
      (SMA (List.replicate 3 (2 : ℚ)) 2)[1]? = some (some 2) :=
  ⟨by simp, by norm_num, by norm_num, by simp,
    C9_sma_const (List.replicate 3 2) 2 2 1 (by simp) (by norm_num) (by norm_num) (by simp)⟩

/-- C10: during a run over data of length at least 101, every tick of the
loop satisfies `100 ≤ tick < N`, so the slices `sma[:tick]` passed to
`crossover` by `SmaCross.next` have length `tick ≥ 100 ≥ 2` and both
`crossover` calls are in bounds (return a value rather than the
out-of-bounds failure). -/
theorem C10_slices_in_bounds (close s1 s2 : List ℚ)
    (h1 : s1.length = close.length) (h2 : s2.length = close.length)
    (hN : 101 ≤ close.length) :
    ∀ t ∈ List.range' 100 (close.length - 100),
      (s1.take t).length = t ∧ 2 ≤ (s1.take t).length ∧ 2 ≤ (s2.take t).length ∧
        (crossover (s1.take t) (s2.take t)).isSome ∧
        (crossover (s2.take t) (s1.take t)).isSome := by
  intro t ht
  rw [List.mem_range'_1] at ht
  have l1 : (s1.take t).length = t := by
    simp only [List.length_take]
    omega
  have l2 : (s2.take t).length = t := by
    simp only [List.length_take]
    omega
  have b1 : 2 ≤ (s1.take t).length := by omega
  have b2 : 2 ≤ (s2.take t).length := by omega
  refine ⟨l1, b1, b2, ?_, ?_⟩
  · simp only [crossover, List.length_take]
    rw [if_pos (by omega)]
    rfl
  · simp only [crossover, List.length_take]
    rw [if_pos (by omega)]
    rfl

/-- Witness for C10: 101 bars of price 1, identical SMA arrays, tick 100. -/
theorem C10_slices_in_bounds_witness :
    100 ∈ List.range' 100 ((List.replicate 101 (1 : ℚ)).length - 100) ∧
      (((List.replicate 101 (1 : ℚ)).take 100).length = 100 ∧
        2 ≤ ((List.replicate 101 (1 : ℚ)).take 100).length ∧
        2 ≤ ((List.replicate 101 (1 : ℚ)).take 100).length ∧
        (crossover ((List.replicate 101 (1 : ℚ)).take 100)
            ((List.replicate 101 (1 : ℚ)).take 100)).isSome ∧
        (crossover ((List.replicate 101 (1 : ℚ)).take 100)
            ((List.replicate 101 (1 : ℚ)).take 100)).isSome) := by
  have hm : 100 ∈ List.range' 100 ((List.replicate 101 (1 : ℚ)).length - 100) := by
    simp [List.mem_range'_1]
  exact ⟨hm, C10_slices_in_bounds (List.replicate 101 1) (List.replicate 101 1)
    (List.replicate 101 1) rfl rfl (by simp) 100 hm⟩

/-- Every current price read from a series of non-negative prices is
non-negative (out-of-range reads default to 0). -/
theorem currentPrice_nonneg (close : List ℚ) (h : ∀ x ∈ close, 0 ≤ x) (t : ℕ) :
    0 ≤ currentPrice close t := by
  unfold currentPrice
  rw [List.getD_eq_getElem?_getD]
  cases hx : close[t]? with
  | none => simp
  | some x =>
    simp only [Option.getD_some]
    exact h x (List.getElem?_mem hx)

/-- One strategy step preserves: non-negativity of the higher-commission
account and the componentwise dominance of the lower-commission account,
at any common non-negative price. -/
theorem applyAction_mono (k1 k2 p : ℚ) (a : Action) (s1 s2 : ExchangeState)
    (hk1 : 0 ≤ k1) (hk12 : k1 ≤ k2) (hk2 : k2 ≤ 1) (hp : 0 ≤ p)
    (hc2 : 0 ≤ s2.cash) (hq2 : 0 ≤ s2.pos)
    (hc : s2.cash ≤ s1.cash) (hq : s2.pos ≤ s1.pos) :
    0 ≤ (applyAction k2 p a s2).cash ∧ 0 ≤ (applyAction k2 p a s2).pos ∧
      (applyAction k2 p a s2).cash ≤ (applyAction k1 p a s1).cash ∧
      (applyAction k2 p a s2).pos ≤ (applyAction k1 p a s1).pos := by
  have hc1 : 0 ≤ s1.cash := le_trans hc2 hc
  have hq1 : 0 ≤ s1.pos := le_trans hq2 hq
  have hk2' : (0 : ℚ) ≤ 1 - k2 := by linarith
  have hk12' : (1 : ℚ) - k2 ≤ 1 - k1 := by linarith
  cases a with
  | hold => exact ⟨hc2, hq2, hc, hq⟩
  | buy =>
    simp only [applyAction, buy]
    refine ⟨le_refl 0, div_nonneg (mul_nonneg hc2 hk2') hp, le_refl 0, ?_⟩
    have hmul : s2.cash * (1 - k2) ≤ s1.cash * (1 - k1) :=
      mul_le_mul hc hk12' hk2' hc1
    rcases hp.eq_or_lt with hp0 | hp0
    · rw [← hp0, div_zero, div_zero]
    · exact (div_le_div_iff_of_pos_right hp0).mpr hmul
  | sell =>
    simp only [applyAction, sell]
    refine ⟨add_nonneg hc2 (mul_nonneg (mul_nonneg hq2 hp) hk2'), le_refl 0, ?_, le_refl 0⟩
    have hmul : s2.pos * p * (1 - k2) ≤ s1.pos * p * (1 - k1) :=
      mul_le_mul (mul_le_mul_of_nonneg_right hq hp) hk12' hk2' (mul_nonneg hq1 hp)
    exact add_le_add hc hmul

/-- Running the same tick list and strategy at a higher commission keeps
the account componentwise below the lower-commission run (and
non-negative), and both runs end at the same cursor. -/
theorem runLoop_mono (k1 k2 : ℚ) (close : List ℚ) (strat : ℕ → Action)
    (hk1 : 0 ≤ k1) (hk12 : k1 ≤ k2) (hk2 : k2 ≤ 1) (hpx : ∀ x ∈ close, 0 ≤ x) :
    ∀ (ts : List ℕ) (b1 b2 : BrokerState), b1.idx = b2.idx →
      0 ≤ b2.acct.cash → 0 ≤ b2.acct.pos →
      b2.acct.cash ≤ b1.acct.cash → b2.acct.pos ≤ b1.acct.pos →
      (runLoop k1 close strat ts b1).idx = (runLoop k2 close strat ts b2).idx ∧
        0 ≤ (runLoop k2 close strat ts b2).acct.cash ∧
        0 ≤ (runLoop k2 close strat ts b2).acct.pos ∧
        (runLoop k2 close strat ts b2).acct.cash ≤ (runLoop k1 close strat ts b1).acct.cash ∧
        (runLoop k2 close strat ts b2).acct.pos ≤ (runLoop k1 close strat ts b1).acct.pos := by
  intro ts
  induction ts with
  | nil =>
    intro b1 b2 hidx hc2 hq2 hc hq
    exact ⟨hidx, hc2, hq2, hc, hq⟩
  | cons t ts ih =>
    intro b1 b2 hidx hc2 hq2 hc hq
    have hstep := applyAction_mono k1 k2 (currentPrice close t) (strat t) b1.acct b2.acct
      hk1 hk12 hk2 (currentPrice_nonneg close hpx t) hc2 hq2 hc hq
    simp only [runLoop]
    exact ih _ _ rfl hstep.1 hstep.2.1 hstep.2.2.1 hstep.2.2.2

/-- C7: for a fixed price series (non-negative prices), fixed strategy and
fixed initial cash, the final market value at commission `k2` is at most
the final market value at commission `k1` whenever
`0 ≤ k1 ≤ k2 ≤ 0.05` — the final market value is non-increasing in the
commission rate. -/
theorem C7_commission_mono (close : List ℚ) (strat : ℕ → Action) (cash0 k1 k2 : ℚ)
    (hc0 : 0 ≤ cash0) (hk1 : 0 ≤ k1) (hk12 : k1 ≤ k2) (hk2 : k2 ≤ 1 / 20)
    (hpx : ∀ x ∈ close, 0 ≤ x) :
    finalMarketValue close strat cash0 k2 ≤ finalMarketValue close strat cash0 k1 := by
  have hk2' : k2 ≤ 1 := le_trans hk2 (by norm_num)
  have hrun := runLoop_mono k1 k2 close strat hk1 hk12 hk2' hpx
    (List.range' 100 (close.length - 100))
    { acct := { cash := cash0, pos := 0 }, idx := 0 }
    { acct := { cash := cash0, pos := 0 }, idx := 0 }
    rfl hc0 (le_refl 0) (le_refl cash0) (le_refl 0)
  unfold finalMarketValue marketValue runBacktest
  rcases hrun with ⟨hidx, hc2, hq2, hcle, hqle⟩
  rw [← hidx]
  exact add_le_add hcle (mul_le_mul_of_nonneg_right hqle
    (currentPrice_nonneg close hpx _))

/-- Witness for C7: 101 bars at price 1, an always-buy strategy, initial
cash 1, commissions 0 and 1/100. -/
theorem C7_commission_mono_witness :
    (0 : ℚ) ≤ 1 ∧ (0 : ℚ) ≤ 0 ∧ (0 : ℚ) ≤ 1 / 100 ∧ (1 : ℚ) / 100 ≤ 1 / 20 ∧
      finalMarketValue (List.replicate 101 1) (fun _ => Action.buy) 1 (1 / 100) ≤
        finalMarketValue (List.replicate 101 1) (fun _ => Action.buy) 1 0 :=
  ⟨by norm_num, le_refl 0, by norm_num, by norm_num,
    C7_commission_mono (List.replicate 101 1) (fun _ => Action.buy) 1 0 (1 / 100)
      (by norm_num) (le_refl 0) (by norm_num) (by norm_num)
      (fun x hx => by rw [List.eq_of_mem_replicate hx]; norm_num)⟩

end SimpleBacktesting
